import Mathlib

/-!
Verification of the GitHub non-main-branch audit job (`src/lambda/app.py`).

The Python program is a single linear batch job: it fetches a token, walks
organizations → repositories → branches collecting every branch named
differently from "main" together with a staleness flag, renders a
plain-text and an HTML report, and emails it.  This file gives a shallow
embedding of that program:

* Python dictionaries (`branches_by_org`) become association lists with
  insertion-order semantics (`dictGet` / `dictSet`), exactly mirroring
  CPython's ordered dicts.
* The GitHub API world is a value of type `World`: the list of
  organizations with their repositories and branches, together with
  failure flags for every `try`-guarded API call in the source
  (organization listing, per-organization repository listing,
  per-repository branch listing, per-branch commit fetch) and failure
  messages for the fatal collaborators (secret retrieval, email send).
* Timestamps are integer seconds (`Int`); `datetime.now(timezone.utc)`
  becomes the `now` field of the world, and the rendered
  `datetime.utcnow().isoformat()` string becomes the `ts` field.
* `time.sleep` inside `check_rate_limit` is modelled by the number of
  seconds slept, computed by the pure function `check_rate_limit_sleep`.
* Python's stable `sorted` becomes insertion sort over a structural
  lexicographic character-list comparison (`charListLt`), which agrees
  with CPython's code-point string ordering.
-/

/-- A collected record for one non-main branch: the `{'branch': ..., 'stale': ...}`
dictionary appended at lines 217-220 of `app.py`. -/
structure BranchRec where
  branch : String
  stale : Bool
deriving DecidableEq

/-- One branch as served by the GitHub API: its name, the committer date of
its HEAD commit (seconds), and whether fetching that commit raises
(the `try` at lines 207-222 of `app.py`). -/
structure Branch where
  name : String
  commitDate : Int
  commitFail : Bool
deriving DecidableEq

/-- One repository: its name, its branches, and whether listing its branches
raises (the `try` at lines 200-224; `repo.get_branches()` is the first
call after the count increment that can fail). -/
structure Repo where
  name : String
  branches : List Branch
  listBranchesFail : Bool
deriving DecidableEq

/-- One organization: its login, its repositories, and whether listing its
repositories raises (the `try` at lines 195-226; `org.get_repos()` runs
after `branches_by_org[org.login] = {}` has already been assigned). -/
structure Org where
  login : String
  repos : List Repo
  listReposFail : Bool
deriving DecidableEq

/-- The external world of one run: rendered timestamp, current time in
seconds, the failure message of `get_secret` if it raises, the failure
message of `g.get_user().get_orgs()` if it raises (lines 186-192), the
organizations themselves, and the failure message of `ses.send_email` if
it raises. -/
structure World where
  ts : String
  now : Int
  secretFail : Option String
  orgListFail : Option String
  orgs : List Org
  sendEmailFail : Option String

/-- The dictionary returned by `lambda_handler` (lines 270-280). -/
structure LambdaResult where
  statusCode : Nat
  body : String
deriving DecidableEq

/-- Python dict lookup `d[k]` (as `Option`): first matching key. -/
def dictGet {α : Type} : List (String × α) → String → Option α
  | [], _ => none
  | (k, v) :: rest, key => if k = key then some v else dictGet rest key

/-- Python dict assignment `d[k] = v`: update in place if the key exists
(keeping its position), otherwise append at the end, exactly as CPython
ordered dicts behave. -/
def dictSet {α : Type} : List (String × α) → String → α → List (String × α)
  | [], key, val => [(key, val)]
  | (k, v) :: rest, key, val =>
    if k = key then (key, val) :: rest else (k, v) :: dictSet rest key val

/-- `check_rate_limit` (lines 157-166): the number of seconds the call
blocks, given the rate status `remaining`/`resetAt` and the current time.
The source sleeps `reset_time - time.time() + 10` when `remaining < 100`
and that quantity is positive; otherwise it does not sleep. -/
def check_rate_limit_sleep (remaining resetAt now : Int) : Int :=
  if remaining < 100 then
    let sleep_time := resetAt - now + 10
    if sleep_time > 0 then sleep_time else 0
  else 0

/-- The staleness test of lines 213-214:
`age_seconds > 72 * 3600` where `age_seconds = now - commit_date`. -/
def isStale (now commitDate : Int) : Bool := now - commitDate > 72 * 3600

/-- Lines 205-222: handling of one branch.  Branches named "main" are
skipped before the inner `try`; a commit-fetch failure is caught there and
appends nothing; otherwise a record is appended to
`branches_by_org[login][rname]` (creating the repository key on first
use).  The organization key always exists at this point in a run: it was
assigned at line 198 before any repository of that organization is
processed. -/
def processBranch (now : Int) (login rname : String) (b : Branch)
    (bbo : List (String × List (String × List BranchRec))) :
    List (String × List (String × List BranchRec)) :=
  if b.name ≠ "main" then
    if b.commitFail then bbo
    else
      let inner := (dictGet bbo login).getD []
      let recs := (dictGet inner rname).getD []
      let rec' := recs ++ [{ branch := b.name, stale := isStale now b.commitDate }]
      dictSet bbo login (dictSet inner rname rec')
  else bbo

/-- Lines 200-224: handling of one repository.  `repo_count` is
incremented before `repo.get_branches()`, so a repository whose branch
listing fails is still counted; the repository-level `except` then skips
to the next repository. -/
def processRepo (now : Int) (login : String) (r : Repo)
    (st : List (String × List (String × List BranchRec)) × Nat) :
    List (String × List (String × List BranchRec)) × Nat :=
  if r.listBranchesFail then (st.1, st.2 + 1)
  else
    (r.branches.foldl (fun bbo b => processBranch now login r.name b bbo) st.1,
     st.2 + 1)

/-- Lines 194-226: handling of one organization.  The key
`branches_by_org[org.login] = {}` is assigned first; a failure of
`org.get_repos()` is caught by the organization-level `except`, leaving
the empty inner dict behind. -/
def processOrg (now : Int) (o : Org)
    (st : List (String × List (String × List BranchRec)) × Nat) :
    List (String × List (String × List BranchRec)) × Nat :=
  let st1 := (dictSet st.1 o.login [], st.2)
  if o.listReposFail then st1
  else o.repos.foldl (fun s r => processRepo now o.login r s) st1

/-- Lines 183-226: the whole enumeration.  A failure of the top-level
organization listing is re-raised (line 192); every other failure is
swallowed by the nested `except` clauses. -/
def enumerate (w : World) :
    Except String (List (String × List (String × List BranchRec)) × Nat) :=
  match w.orgListFail with
  | some msg => Except.error msg
  | none => Except.ok (w.orgs.foldl (fun st o => processOrg w.now o st) ([], 0))

/-- The `branches_by_org` dictionary a non-fatal run produces. -/
def enumBBO (w : World) : List (String × List (String × List BranchRec)) :=
  (w.orgs.foldl (fun st o => processOrg w.now o st) ([], 0)).1

/-- The records stored under a given organization login and repository
name in the collected dictionary (empty when either key is absent). -/
def recordsAt (bbo : List (String × List (String × List BranchRec)))
    (login rname : String) : List BranchRec :=
  (dictGet ((dictGet bbo login).getD []) rname).getD []

/-- How many records for branch `bname` sit under `login`/`rname`. -/
def countRecords (bbo : List (String × List (String × List BranchRec)))
    (login rname bname : String) : Nat :=
  (recordsAt bbo login rname).countP (fun rec => rec.branch == bname)

/-- A branch survives the filter of lines 206-214: not named "main" and
its commit fetch succeeded. -/
def keepBranch (b : Branch) : Bool := b.name != "main" && !b.commitFail

/-- The record lines 217-220 build for a kept branch. -/
def branchRecOf (now : Int) (b : Branch) : BranchRec :=
  { branch := b.name, stale := isStale now b.commitDate }

/-- The records a successfully listed repository contributes: its kept
branches in listing order. -/
def repoRecs (now : Int) (r : Repo) : List BranchRec :=
  (r.branches.filter keepBranch).map (branchRecOf now)

/-- The effect of one branch on the inner (repository → records)
dictionary of its organization. -/
def innerStepBranch (now : Int) (rname : String) (b : Branch)
    (inner : List (String × List BranchRec)) : List (String × List BranchRec) :=
  if b.name ≠ "main" then
    if b.commitFail then inner
    else dictSet inner rname ((dictGet inner rname).getD [] ++ [branchRecOf now b])
  else inner

/-- The effect of one repository on the inner dictionary. -/
def innerStepRepo (now : Int) (r : Repo)
    (inner : List (String × List BranchRec)) : List (String × List BranchRec) :=
  if r.listBranchesFail then inner
  else r.branches.foldl (fun i b => innerStepBranch now r.name b i) inner

/-- The inner dictionary one organization ends up with. -/
def orgInner (now : Int) (o : Org) : List (String × List BranchRec) :=
  if o.listReposFail then []
  else o.repos.foldl (fun i r => innerStepRepo now r i) []

/-- The repository count of a run: one per repository of every
organization whose repository listing succeeded. -/
def visitedRepoCount : List Org → Nat
  | [] => 0
  | o :: rest => (if o.listReposFail then 0 else o.repos.length) + visitedRepoCount rest

/-- Code-point lexicographic comparison of character lists: the order
CPython uses for `str` comparison (and hence for `sorted` on the
dictionary items and branch names). -/
def charListLt : List Char → List Char → Bool
  | [], [] => false
  | [], _ :: _ => true
  | _ :: _, [] => false
  | a :: as, b :: bs => if a < b then true else if b < a then false else charListLt as bs

/-- Strict string comparison, `a < b` in Python. -/
def strLtB (a b : String) : Bool := charListLt a.data b.data

/-- Non-strict string comparison, `a <= b` in Python. -/
def strLeB (a b : String) : Bool := !(strLtB b a)

/-- Sorting relation on dictionary items: by key, as Python's
`sorted(d.items())` compares the key-value tuples whose keys are distinct. -/
def keyLe {α : Type} (a b : String × α) : Prop := strLeB a.1 b.1 = true

/-- Sorting relation of `sorted(branches, key=lambda x: x['branch'])`. -/
def recLe (a b : BranchRec) : Prop := strLeB a.branch b.branch = true

instance {α : Type} : DecidableRel (@keyLe α) := fun a b =>
  (instDecidableEqBool (strLeB a.1 b.1) true : Decidable (keyLe a b))

instance : DecidableRel recLe := fun a b =>
  (instDecidableEqBool (strLeB a.branch b.branch) true : Decidable (recLe a b))

/-- `sorted(d.items())`: a stable sort by key (Timsort and insertion sort
agree on every input because both are stable). -/
def sortDict {α : Type} (d : List (String × α)) : List (String × α) :=
  List.insertionSort keyLe d

/-- `sorted(branches, key=lambda x: x['branch'])`. -/
def sortBranches (l : List BranchRec) : List BranchRec :=
  List.insertionSort recLe l

/-- `'Y' if stale else 'N'` (lines 241-244). -/
def ynStr (b : Bool) : String := if b then "Y" else "N"

/-- One row of the rendered report: an organization header, an indented
repository line, or a doubly indented branch line. -/
inductive Item where
  | org (name : String)
  | repo (name : String)
  | branch (name : String) (stale : Bool)
deriving DecidableEq

/-- Plain-text rendering of a row (lines 235, 238, 241). -/
def itemText : Item → String
  | .org n => n
  | .repo n => "    " ++ n
  | .branch n s => "        " ++ n ++ ", " ++ ynStr s

/-- HTML rendering of a row (lines 236, 239, 242-244). -/
def itemHtml : Item → String
  | .org n => "<h3>" ++ n ++ "</h3>"
  | .repo n => "<p style=\"margin-left: 20px;\">" ++ n ++ "</p>"
  | .branch n s => "<p style=\"margin-left: 40px;\">" ++ n ++ ", " ++ ynStr s ++ "</p>"

/-- The row sequence the nested loop of lines 233-244 walks through:
organizations sorted, empty ones skipped (`if repos:`), repositories
sorted within each, branches sorted within each repository. -/
def bodyItems (bbo : List (String × List (String × List BranchRec))) : List Item :=
  (sortDict bbo).flatMap (fun p =>
    if p.2 = [] then []
    else Item.org p.1 ::
      (sortDict p.2).flatMap (fun q =>
        Item.repo q.1 :: (sortBranches q.2).map (fun x => Item.branch x.branch x.stale)))

/-- `text_lines` as built by lines 231-244 (before the total line). -/
def textLinesOf (bbo : List (String × List (String × List BranchRec))) : List String :=
  (sortDict bbo).flatMap (fun p =>
    if p.2 = [] then []
    else p.1 ::
      (sortDict p.2).flatMap (fun q =>
        ("    " ++ q.1) ::
          (sortBranches q.2).map (fun x => "        " ++ x.branch ++ ", " ++ ynStr x.stale)))

/-- The loop part of `html_lines` (lines 232-244, without the opening
`<div>` element prepended at line 232). -/
def htmlLinesOf (bbo : List (String × List (String × List BranchRec))) : List String :=
  (sortDict bbo).flatMap (fun p =>
    if p.2 = [] then []
    else ("<h3>" ++ p.1 ++ "</h3>") ::
      (sortDict p.2).flatMap (fun q =>
        ("<p style=\"margin-left: 20px;\">" ++ q.1 ++ "</p>") ::
          (sortBranches q.2).map (fun x =>
            "<p style=\"margin-left: 40px;\">" ++ x.branch ++ ", " ++ ynStr x.stale ++ "</p>")))

/-- The non-empty plain-text body (lines 245-251).  Note the source bug:
the two adjacent f-string literals merge before `.join` is applied, so
the intended header becomes part of the join separator — the body is
`text_lines` (with the total line appended) joined by
`"Non-main branches found as of <ts>:\n\n\n"`. -/
def textBodyNonEmpty (ts : String) (bbo : List (String × List (String × List BranchRec)))
    (repoCount : Nat) : String :=
  String.intercalate ("Non-main branches found as of " ++ ts ++ ":\n\n\n")
    (textLinesOf bbo ++ ["\nTotal repositories processed: " ++ toString repoCount])

/-- The non-empty HTML body (lines 246-247, 252-255): header paragraph,
newline, then the concatenated `html_lines` with the total paragraph and
closing `</div>`. -/
def htmlBodyNonEmpty (ts : String) (bbo : List (String × List (String × List BranchRec)))
    (repoCount : Nat) : String :=
  "<p>Non-main branches found as of " ++ ts ++ ":</p>" ++ "\n" ++
    String.join
      (["<div style=\"font-family: Arial, sans-serif;\">"] ++ htmlLinesOf bbo ++
        ["<p>Total repositories processed: " ++ toString repoCount ++ "</p>", "</div>"])

/-- The empty-result plain-text body (lines 257-260). -/
def textBodyEmpty (ts : String) (repoCount : Nat) : String :=
  "No non-main branches found as of " ++ ts ++ ".\n\n" ++
    "Total repositories processed: " ++ toString repoCount

/-- The empty-result HTML body (lines 261-264). -/
def htmlBodyEmpty (ts : String) (repoCount : Nat) : String :=
  "<p>No non-main branches found as of " ++ ts ++ ".</p>" ++
    "<p>Total repositories processed: " ++ toString repoCount ++ "</p>"

/-- Lines 229-264: `(html_body, text_body)`.  The `if branches_by_org:`
test is dictionary truthiness — it asks whether any organization key
exists, not whether any record was collected. -/
def emailBodies (ts : String) (bbo : List (String × List (String × List BranchRec)))
    (repoCount : Nat) : String × String :=
  if bbo = [] then (htmlBodyEmpty ts repoCount, textBodyEmpty ts repoCount)
  else (htmlBodyNonEmpty ts bbo repoCount, textBodyNonEmpty ts bbo repoCount)

/-- Lowercase hex digit, as `json.dumps` renders them. -/
def toHexDigit (n : Nat) : Char := if n < 10 then Char.ofNat (48 + n) else Char.ofNat (87 + n)

/-- Four lowercase hex digits. -/
def u4 (n : Nat) : String :=
  String.mk [toHexDigit (n / 4096 % 16), toHexDigit (n / 256 % 16),
             toHexDigit (n / 16 % 16), toHexDigit (n % 16)]

/-- How `json.dumps` (default `ensure_ascii=True`) renders one character:
quote and backslash escaped, the usual short escapes, every character
outside printable ASCII as `\uXXXX` (surrogate pairs above the BMP). -/
def jsonEscapeChar (c : Char) : String :=
  if c = '"' then "\\\""
  else if c = '\\' then "\\\\"
  else if c = '\n' then "\\n"
  else if c = '\t' then "\\t"
  else if c = '\r' then "\\r"
  else if c.toNat = 8 then "\\b"
  else if c.toNat = 12 then "\\f"
  else if 32 ≤ c.toNat ∧ c.toNat ≤ 126 then String.singleton c
  else if c.toNat ≥ 65536 then
    let v := c.toNat - 65536
    "\\u" ++ u4 (55296 + v / 1024) ++ "\\u" ++ u4 (56320 + v % 1024)
  else "\\u" ++ u4 c.toNat

/-- `json.dumps` applied to a string (the only shape the handler uses). -/
def jsonDumps (s : String) : String :=
  "\"" ++ String.join (s.data.map jsonEscapeChar) ++ "\""

/-- Lines 168-280: the handler.  The outer `try` catches everything, so
the function always returns a dictionary: 200 with a fixed confirmation
when every fatal step succeeds, 500 with `json.dumps(f'Error: {e}')` when
secret retrieval, the organization listing, or the email send raises.
(The body construction of lines 229-264 is pure and cannot raise.) -/
def lambda_handler (w : World) : LambdaResult :=
  match w.secretFail with
  | some msg => { statusCode := 500, body := jsonDumps ("Error: " ++ msg) }
  | none =>
    match enumerate w with
    | Except.error msg => { statusCode := 500, body := jsonDumps ("Error: " ++ msg) }
    | Except.ok _ =>
      match w.sendEmailFail with
      | some msg => { statusCode := 500, body := jsonDumps ("Error: " ++ msg) }
      | none => { statusCode := 200, body := jsonDumps "Successfully processed and sent email" }

/-- No fatal step of the run raises. -/
def noFatal (w : World) : Prop :=
  w.secretFail = none ∧ w.orgListFail = none ∧ w.sendEmailFail = none

/-- Row classifiers. -/
def isOrgItem : Item → Bool
  | .org _ => true
  | _ => false

def isRepoItem : Item → Bool
  | .repo _ => true
  | _ => false

def isBranchItem : Item → Bool
  | .branch _ _ => true
  | _ => false

/-- The adjacency discipline of the rendered body: an organization header
is immediately followed by a repository line, a repository line
immediately by a branch line. -/
def followsOK (a b : Item) : Prop :=
  (isOrgItem a = true → isRepoItem b = true) ∧ (isRepoItem a = true → isBranchItem b = true)

/-- The (organization, repository, branch) triple of every branch row, in
rendering order. -/
def tripleSeq (bbo : List (String × List (String × List BranchRec))) :
    List (String × String × String) :=
  (sortDict bbo).flatMap (fun p =>
    if p.2 = [] then []
    else (sortDict p.2).flatMap (fun q =>
      (sortBranches q.2).map (fun x => (p.1, q.1, x.branch))))

/-- Lexicographic order on the rendered triples. -/
def lexLe (x y : String × String × String) : Prop :=
  strLtB x.1 y.1 = true ∨
    (x.1 = y.1 ∧ (strLtB x.2.1 y.2.1 = true ∨ (x.2.1 = y.2.1 ∧ strLeB x.2.2 y.2.2 = true)))

/-- Keys of an association list are pairwise distinct (true of every real
GitHub listing: logins, repository names and branch names are unique). -/
def keysNodup {α : Type} (d : List (String × α)) : Prop := (d.map Prod.fst).Nodup

/-- No record anywhere in the dictionary is for a branch named "main". -/
def mainFree (bbo : List (String × List (String × List BranchRec))) : Prop :=
  ∀ p ∈ bbo, ∀ q ∈ p.2, ∀ x ∈ q.2, x.branch ≠ "main"

/-- Every repository key present in the dictionary holds at least one
record. -/
def noEmptyRepoLists (bbo : List (String × List (String × List BranchRec))) : Prop :=
  ∀ p ∈ bbo, ∀ q ∈ p.2, q.2 ≠ []

/-- Entity names are distinct at every level, as the GitHub API
guarantees. -/
def wellFormed (w : World) : Prop :=
  (w.orgs.map Org.login).Nodup ∧
    (∀ o ∈ w.orgs, (o.repos.map Repo.name).Nodup) ∧
    (∀ o ∈ w.orgs, ∀ r ∈ o.repos, (r.branches.map Branch.name).Nodup)

/-! ### Concrete runs used as witnesses and counterexamples -/

/-- One organization whose only repository has only a `main` branch: the
run collects zero records, yet `branches_by_org` holds the key `acme`. -/
def wEmptyBug : World :=
  { ts := "2025-07-02T15:58:00", now := 0, secretFail := none, orgListFail := none,
    orgs := [{ login := "acme", listReposFail := false,
               repos := [{ name := "widgets", listBranchesFail := false,
                           branches := [{ name := "main", commitDate := 0,
                                          commitFail := false }] }] }],
    sendEmailFail := none }

/-- A non-main branch whose HEAD-commit fetch raises. -/
def bSkipDev : Branch := { name := "dev", commitDate := 0, commitFail := true }

def rSkip : Repo := { name := "r", branches := [bSkipDev], listBranchesFail := false }

def oSkip : Org := { login := "o", repos := [rSkip], listReposFail := false }

/-- A run whose single non-main branch fails its commit fetch. -/
def wSkipC : World :=
  { ts := "T", now := 0, secretFail := none, orgListFail := none,
    orgs := [oSkip], sendEmailFail := none }

def bAuditMain : Branch := { name := "main", commitDate := 0, commitFail := false }

def bAuditDev : Branch := { name := "dev", commitDate := 999000, commitFail := false }

def rAudit : Repo :=
  { name := "r", branches := [bAuditMain, bAuditDev], listBranchesFail := false }

def oAudit : Org := { login := "o", repos := [rAudit], listReposFail := false }

/-- A clean run with one `main` and one non-main branch. -/
def wAudit : World :=
  { ts := "T", now := 1000000, secretFail := none, orgListFail := none,
    orgs := [oAudit], sendEmailFail := none }

def rP1 : Repo :=
  { name := "r1", listBranchesFail := false,
    branches := [{ name := "dev", commitDate := 0, commitFail := false }] }

def rP2 : Repo :=
  { name := "r2", listBranchesFail := true,
    branches := [{ name := "dev2", commitDate := 0, commitFail := false }] }

def rP3 : Repo :=
  { name := "r3", listBranchesFail := false,
    branches := [{ name := "dev3", commitDate := 0, commitFail := false }] }

def oPartial : Org := { login := "o", repos := [rP1, rP2, rP3], listReposFail := false }

/-- Three repositories, the second of which fails its branch listing. -/
def wPartial : World :=
  { ts := "T", now := 1000000, secretFail := none, orgListFail := none,
    orgs := [oPartial], sendEmailFail := none }

def bIso : Branch := { name := "feat", commitDate := 0, commitFail := false }

def bIsoBad : Branch := { name := "bad", commitDate := 0, commitFail := true }

def rIso : Repo := { name := "rg", branches := [bIso, bIsoBad], listBranchesFail := false }

def rIsoBad : Repo :=
  { name := "rb", listBranchesFail := true,
    branches := [{ name := "lost", commitDate := 0, commitFail := false }] }

def oIsoBad : Org := { login := "x", repos := [], listReposFail := true }

def oIso : Org := { login := "g", repos := [rIsoBad, rIso], listReposFail := false }

/-- Failures at all three levels next to one healthy repository. -/
def wIso : World :=
  { ts := "T", now := 1000000, secretFail := none, orgListFail := none,
    orgs := [oIsoBad, oIso], sendEmailFail := none }

/-- A run whose organization listing raises. -/
def wFatal : World :=
  { ts := "T", now := 0, secretFail := none, orgListFail := some "boom",
    orgs := [], sendEmailFail := none }

/-- An already collected dictionary with unsorted keys. -/
def dZ : List (String × List (String × List BranchRec)) :=
  [("z", [("r2", [{ branch := "dev", stale := true }]),
          ("r1", [{ branch := "main-ish", stale := false }])]),
   ("a", [("r1", [{ branch := "dev", stale := false }])])]

def rTenEmpty : Repo :=
  { name := "re", listBranchesFail := false,
    branches := [{ name := "main", commitDate := 0, commitFail := false }] }

def oTenEmpty : Org := { login := "e", repos := [rTenEmpty], listReposFail := false }

def rTen : Repo :=
  { name := "rr", listBranchesFail := false,
    branches := [{ name := "dev", commitDate := 0, commitFail := false }] }

def oTen : Org := { login := "g", repos := [rTen], listReposFail := false }

/-- One organization with records next to one without any. -/
def wTen : World :=
  { ts := "T", now := 1000000, secretFail := none, orgListFail := none,
    orgs := [oTenEmpty, oTen], sendEmailFail := none }

/-! ### Helper lemmas: the string order -/

theorem charListLt_irrefl : ∀ l : List Char, charListLt l l = false
  | [] => rfl
  | a :: as => by simp [charListLt, lt_irrefl a, charListLt_irrefl as]

theorem charListLt_trans : ∀ {l₁ l₂ l₃ : List Char},
    charListLt l₁ l₂ = true → charListLt l₂ l₃ = true → charListLt l₁ l₃ = true
  | [], [], _, h1, _ => by simp [charListLt] at h1
  | [], _ :: _, [], _, h2 => by simp [charListLt] at h2
  | [], _ :: _, _ :: _, _, _ => rfl
  | _ :: _, [], _, h1, _ => by simp [charListLt] at h1
  | _ :: _, _ :: _, [], _, h2 => by simp [charListLt] at h2
  | a :: as, b :: bs, c :: cs, h1, h2 => by
    simp only [charListLt] at h1 h2 ⊢
    by_cases hab : a < b
    · by_cases hbc : b < c
      · simp [lt_trans hab hbc]
      · by_cases hcb : c < b
        · simp [hbc, hcb] at h2
        · have hEq : b = c := le_antisymm (not_lt.mp hcb) (not_lt.mp hbc)
          subst hEq; simp [hab]
    · by_cases hba : b < a
      · simp [hab, hba] at h1
      · have hEq : a = b := le_antisymm (not_lt.mp hba) (not_lt.mp hab)
        subst hEq
        simp only [lt_irrefl, if_false] at h1
        by_cases hac : a < c
        · simp [hac]
        · by_cases hca : c < a
          · simp [hac, hca] at h2
          · simp only [hac, hca, if_false] at h2 ⊢
            exact charListLt_trans h1 h2

theorem charListLt_conn : ∀ {l₁ l₂ : List Char},
    charListLt l₁ l₂ = false → charListLt l₂ l₁ = false → l₁ = l₂
  | [], [], _, _ => rfl
  | [], _ :: _, h1, _ => by simp [charListLt] at h1
  | _ :: _, [], _, h2 => by simp [charListLt] at h2
  | a :: as, b :: bs, h1, h2 => by
    simp only [charListLt] at h1 h2
    by_cases hab : a < b
    · simp [hab] at h1
    · by_cases hba : b < a
      · simp [hba] at h2
      · have hEq : a = b := le_antisymm (not_lt.mp hba) (not_lt.mp hab)
        subst hEq
        simp only [lt_irrefl, if_false] at h1 h2
        rw [charListLt_conn h1 h2]

theorem bool_eq_false {b : Bool} (h : ¬b = true) : b = false := by
  cases b
  · rfl
  · exact absurd rfl h

theorem strLtB_conn {a b : String} (h1 : strLtB a b = false) (h2 : strLtB b a = false) :
    a = b :=
  String.ext (charListLt_conn h1 h2)

theorem strLeB_total (a b : String) : strLeB a b = true ∨ strLeB b a = true := by
  by_cases h : strLtB b a = true
  · right
    have : strLtB a b = false := by
      by_contra hc
      have hc' : strLtB a b = true := by revert hc; cases strLtB a b <;> simp
      have := charListLt_trans hc' h
      rw [charListLt_irrefl] at this
      exact Bool.false_ne_true this
    simp [strLeB, this]
  · left
    simp [strLeB, bool_eq_false h]

theorem strLeB_trans {a b c : String} (h1 : strLeB a b = true) (h2 : strLeB b c = true) :
    strLeB a c = true := by
  simp only [strLeB, Bool.not_eq_true'] at h1 h2 ⊢
  by_contra hc
  have hca : strLtB c a = true := by revert hc; cases strLtB c a <;> simp
  by_cases hab : strLtB a b = true
  · have : strLtB c b = true := charListLt_trans hca hab
    rw [h2] at this
    exact Bool.false_ne_true this
  · have hab' : strLtB a b = false := bool_eq_false hab
    have : a = b := strLtB_conn hab' h1
    subst this
    rw [h2] at hca
    exact Bool.false_ne_true hca

theorem strLeB_of_strLtB {a b : String} (h : strLtB a b = true) : strLeB a b = true := by
  simp only [strLeB, Bool.not_eq_true']
  by_contra hc
  have hba : strLtB b a = true := by revert hc; cases strLtB b a <;> simp
  have := charListLt_trans h hba
  rw [charListLt_irrefl] at this
  exact Bool.false_ne_true this

theorem strLtB_of_strLeB_ne {a b : String} (h : strLeB a b = true) (hne : a ≠ b) :
    strLtB a b = true := by
  simp only [strLeB, Bool.not_eq_true'] at h
  by_contra hc
  exact hne (strLtB_conn (bool_eq_false hc) h)

instance keyLeTotal {α : Type} : IsTotal (String × α) keyLe :=
  ⟨fun a b => strLeB_total a.1 b.1⟩

instance keyLeTrans {α : Type} : IsTrans (String × α) keyLe :=
  ⟨fun _ _ _ h1 h2 => strLeB_trans h1 h2⟩

instance recLeTotal : IsTotal BranchRec recLe :=
  ⟨fun a b => strLeB_total a.branch b.branch⟩

instance recLeTrans : IsTrans BranchRec recLe :=
  ⟨fun _ _ _ h1 h2 => strLeB_trans h1 h2⟩

/-! ### Helper lemmas: dictionaries -/

theorem dictGet_dictSet_self {α : Type} :
    ∀ (d : List (String × α)) (k : String) (v : α), dictGet (dictSet d k v) k = some v
  | [], k, v => by simp [dictGet, dictSet]
  | (k0, v0) :: rest, k, v => by
    by_cases h : k0 = k
    · simp [dictSet, dictGet, h]
    · simp [dictSet, dictGet, h, dictGet_dictSet_self rest k v]

theorem dictGet_dictSet_ne {α : Type} :
    ∀ (d : List (String × α)) (k k' : String) (v : α), k' ≠ k →
      dictGet (dictSet d k v) k' = dictGet d k'
  | [], k, k', v, h => by
    have hne : ¬k = k' := fun hc => h hc.symm
    simp [dictGet, dictSet, hne]
  | (k0, v0) :: rest, k, k', v, h => by
    by_cases h0 : k0 = k
    · subst h0
      have hne : ¬k0 = k' := fun hc => h hc.symm
      simp [dictSet, dictGet, hne]
    · by_cases h1 : k0 = k'
      · subst h1
        simp [dictSet, dictGet, h0]
      · simp [dictSet, dictGet, h0, h1, dictGet_dictSet_ne rest k k' v h]

theorem mem_dictSet {α : Type} :
    ∀ {d : List (String × α)} {k : String} {v : α} {p : String × α},
      p ∈ dictSet d k v → p = (k, v) ∨ p ∈ d
  | [], k, v, p, h => by
    simp [dictSet] at h
    exact Or.inl h
  | (k0, v0) :: rest, k, v, p, h => by
    by_cases h0 : k0 = k
    · simp [dictSet, h0] at h
      rcases h with h | h
      · exact Or.inl (by simp [h])
      · exact Or.inr (List.mem_cons_of_mem _ h)
    · simp only [dictSet, h0, if_false, List.mem_cons] at h
      rcases h with h | h
      · exact Or.inr (by simp [h])
      · rcases mem_dictSet h with h' | h'
        · exact Or.inl h'
        · exact Or.inr (List.mem_cons_of_mem _ h')

theorem dictGet_mem {α : Type} :
    ∀ {d : List (String × α)} {k : String} {v : α}, dictGet d k = some v → (k, v) ∈ d
  | [], k, v, h => by simp [dictGet] at h
  | (k0, v0) :: rest, k, v, h => by
    by_cases h0 : k0 = k
    · subst h0
      simp [dictGet] at h
      simp [h]
    · simp only [dictGet, h0, if_false] at h
      exact List.mem_cons_of_mem _ (dictGet_mem h)

theorem keys_dictSet {α : Type} :
    ∀ (d : List (String × α)) (k : String) (v : α),
      (dictSet d k v).map Prod.fst = if k ∈ d.map Prod.fst then d.map Prod.fst
        else d.map Prod.fst ++ [k]
  | [], k, v => by simp [dictSet]
  | (k0, v0) :: rest, k, v => by
    by_cases h0 : k0 = k
    · simp [dictSet, h0]
    · have hne : ¬k = k0 := fun hc => h0 hc.symm
      simp only [dictSet, h0, if_false, List.map_cons, keys_dictSet rest k v]
      by_cases hmem : k ∈ rest.map Prod.fst
      · simp [hmem, hne]
      · simp [hmem, hne]

theorem keysNodup_dictSet {α : Type} {d : List (String × α)} (k : String) (v : α)
    (h : keysNodup d) : keysNodup (dictSet d k v) := by
  unfold keysNodup at *
  rw [keys_dictSet]
  by_cases hmem : k ∈ d.map Prod.fst
  · simpa [hmem] using h
  · simpa [hmem] using List.Nodup.append h (List.nodup_singleton k) (by simpa using hmem)

theorem dictGet_of_mem_nodup {α : Type} :
    ∀ {d : List (String × α)} {p : String × α}, keysNodup d → p ∈ d →
      dictGet d p.1 = some p.2
  | [], p, _, hp => by simp at hp
  | (k0, v0) :: rest, p, hnd, hp => by
    rcases List.mem_cons.mp hp with h | h
    · subst h
      simp [dictGet]
    · have hk : k0 ≠ p.1 := by
        intro hc
        have : p.1 ∈ rest.map Prod.fst := List.mem_map_of_mem Prod.fst h
        unfold keysNodup at hnd
        simp only [List.map_cons, List.nodup_cons] at hnd
        exact hnd.1 (hc ▸ this)
      have hnd' : keysNodup rest := by
        unfold keysNodup at *
        simp only [List.map_cons, List.nodup_cons] at hnd
        exact hnd.2
      simp only [dictGet, hk, if_false]
      exact dictGet_of_mem_nodup hnd' h

/-! ### Helper lemmas: folds -/

theorem foldl_invariant {α β : Type} (P : β → Prop) (f : β → α → β) :
    ∀ (l : List α) (s : β), P s → (∀ s' a, a ∈ l → P s' → P (f s' a)) → P (l.foldl f s)
  | [], _, hs, _ => hs
  | a :: rest, s, hs, hstep =>
    foldl_invariant P f rest (f s a) (hstep s a (List.mem_cons_self a rest) hs)
      (fun s' a' ha' => hstep s' a' (List.mem_cons_of_mem a ha'))

theorem processBranch_get_self {now : Int} {login rname : String} {b : Branch}
    {bbo : List (String × List (String × List BranchRec))}
    {inner : List (String × List BranchRec)} (h : dictGet bbo login = some inner) :
    dictGet (processBranch now login rname b bbo) login
      = some (innerStepBranch now rname b inner) := by
  unfold processBranch innerStepBranch
  by_cases h1 : b.name ≠ "main"
  · by_cases h2 : b.commitFail
    · simp [h1, h2, h]
    · simp [h1, h2, h, branchRecOf, dictGet_dictSet_self]
  · simp [h1, h]

theorem processBranch_get_ne {now : Int} {login rname : String} {b : Branch}
    {bbo : List (String × List (String × List BranchRec))} {k : String}
    (hk : k ≠ login) :
    dictGet (processBranch now login rname b bbo) k = dictGet bbo k := by
  unfold processBranch
  by_cases h1 : b.name ≠ "main"
  · by_cases h2 : b.commitFail
    · simp [h1, h2]
    · simp [h1, h2, dictGet_dictSet_ne _ _ _ _ hk]
  · simp [h1]

theorem branchFold_get {now : Int} {login rname : String} :
    ∀ (bs : List Branch) (bbo : List (String × List (String × List BranchRec)))
      (inner : List (String × List BranchRec)), dictGet bbo login = some inner →
      dictGet (bs.foldl (fun s b => processBranch now login rname b s) bbo) login
        = some (bs.foldl (fun i b => innerStepBranch now rname b i) inner)
  | [], _, _, h => by simpa using h
  | b :: bs, bbo, inner, h => by
    simp only [List.foldl_cons]
    exact branchFold_get bs _ _ (processBranch_get_self h)

theorem branchFold_get_ne {now : Int} {login rname : String} :
    ∀ (bs : List Branch) (bbo : List (String × List (String × List BranchRec)))
      (k : String), k ≠ login →
      dictGet (bs.foldl (fun s b => processBranch now login rname b s) bbo) k = dictGet bbo k
  | [], _, _, _ => rfl
  | b :: bs, bbo, k, hk => by
    simp only [List.foldl_cons]
    rw [branchFold_get_ne bs _ k hk, processBranch_get_ne hk]

theorem processRepo_get_self {now : Int} {login : String} {r : Repo}
    {st : List (String × List (String × List BranchRec)) × Nat}
    {inner : List (String × List BranchRec)} (h : dictGet st.1 login = some inner) :
    dictGet (processRepo now login r st).1 login = some (innerStepRepo now r inner) := by
  unfold processRepo innerStepRepo
  by_cases hf : r.listBranchesFail
  · simpa [hf] using h
  · simpa [hf] using branchFold_get r.branches st.1 inner h

theorem processRepo_get_ne {now : Int} {login : String} {r : Repo}
    {st : List (String × List (String × List BranchRec)) × Nat} {k : String}
    (hk : k ≠ login) :
    dictGet (processRepo now login r st).1 k = dictGet st.1 k := by
  unfold processRepo
  by_cases hf : r.listBranchesFail
  · simp [hf]
  · simpa [hf] using branchFold_get_ne r.branches st.1 k hk

theorem repoFold_get {now : Int} {login : String} :
    ∀ (rs : List Repo) (st : List (String × List (String × List BranchRec)) × Nat)
      (inner : List (String × List BranchRec)), dictGet st.1 login = some inner →
      dictGet ((rs.foldl (fun s r => processRepo now login r s) st).1) login
        = some (rs.foldl (fun i r => innerStepRepo now r i) inner)
  | [], _, _, h => by simpa using h
  | r :: rs, st, inner, h => by
    simp only [List.foldl_cons]
    exact repoFold_get rs _ _ (processRepo_get_self h)

theorem repoFold_get_ne {now : Int} {login : String} :
    ∀ (rs : List Repo) (st : List (String × List (String × List BranchRec)) × Nat)
      (k : String), k ≠ login →
      dictGet ((rs.foldl (fun s r => processRepo now login r s) st).1) k = dictGet st.1 k
  | [], _, _, _ => rfl
  | r :: rs, st, k, hk => by
    simp only [List.foldl_cons]
    rw [repoFold_get_ne rs _ k hk, processRepo_get_ne hk]

theorem repoFold_cnt {now : Int} {login : String} :
    ∀ (rs : List Repo) (st : List (String × List (String × List BranchRec)) × Nat),
      (rs.foldl (fun s r => processRepo now login r s) st).2 = st.2 + rs.length
  | [], _ => rfl
  | r :: rs, st => by
    simp only [List.foldl_cons]
    rw [repoFold_cnt rs]
    unfold processRepo
    by_cases hf : r.listBranchesFail
    · simp [hf, Nat.add_comm, Nat.add_assoc, Nat.add_left_comm]
    · simp [hf, Nat.add_comm, Nat.add_assoc, Nat.add_left_comm]

theorem processOrg_get_self {now : Int} (o : Org)
    (st : List (String × List (String × List BranchRec)) × Nat) :
    dictGet (processOrg now o st).1 o.login = some (orgInner now o) := by
  unfold processOrg orgInner
  by_cases hf : o.listReposFail
  · simp [hf, dictGet_dictSet_self]
  · simp only [hf, if_false]
    exact repoFold_get o.repos (dictSet st.1 o.login [], st.2) []
      (dictGet_dictSet_self st.1 o.login [])

theorem processOrg_get_ne {now : Int} {o : Org}
    {st : List (String × List (String × List BranchRec)) × Nat} {k : String}
    (hk : k ≠ o.login) :
    dictGet (processOrg now o st).1 k = dictGet st.1 k := by
  unfold processOrg
  by_cases hf : o.listReposFail
  · simp [hf, dictGet_dictSet_ne _ _ _ _ hk]
  · simp only [hf, Bool.false_eq_true, if_false]
    rw [repoFold_get_ne o.repos _ k hk]
    exact dictGet_dictSet_ne _ _ _ _ hk

theorem processOrg_cnt {now : Int} (o : Org)
    (st : List (String × List (String × List BranchRec)) × Nat) :
    (processOrg now o st).2 = st.2 + (if o.listReposFail then 0 else o.repos.length) := by
  unfold processOrg
  by_cases hf : o.listReposFail
  · simp [hf]
  · simp only [hf, if_false]
    exact repoFold_cnt o.repos _

theorem orgFold_get_ne {now : Int} :
    ∀ (orgs : List Org) (st : List (String × List (String × List BranchRec)) × Nat)
      (login : String), login ∉ orgs.map Org.login →
      dictGet ((orgs.foldl (fun s o => processOrg now o s) st).1) login = dictGet st.1 login
  | [], _, _, _ => rfl
  | o :: orgs, st, login, h => by
    simp only [List.map_cons, List.mem_cons] at h
    push_neg at h
    simp only [List.foldl_cons]
    rw [orgFold_get_ne orgs _ login (h.2), processOrg_get_ne h.1]

theorem orgFold_get {now : Int} :
    ∀ (orgs : List Org) (st : List (String × List (String × List BranchRec)) × Nat),
      (orgs.map Org.login).Nodup → ∀ o ∈ orgs,
      dictGet ((orgs.foldl (fun s o => processOrg now o s) st).1) o.login
        = some (orgInner now o)
  | [], _, _, o, ho => absurd ho (List.not_mem_nil o)
  | o0 :: orgs, st, hnd, o, ho => by
    simp only [List.map_cons, List.nodup_cons] at hnd
    rcases List.mem_cons.mp ho with h | h
    · subst h
      simp only [List.foldl_cons]
      rw [orgFold_get_ne orgs _ o.login hnd.1]
      exact processOrg_get_self o st
    · simp only [List.foldl_cons]
      exact orgFold_get orgs _ hnd.2 o h

theorem orgFold_cnt {now : Int} :
    ∀ (orgs : List Org) (st : List (String × List (String × List BranchRec)) × Nat),
      (orgs.foldl (fun s o => processOrg now o s) st).2 = st.2 + visitedRepoCount orgs
  | [], _ => by simp [visitedRepoCount]
  | o :: orgs, st => by
    simp only [List.foldl_cons]
    rw [orgFold_cnt orgs, processOrg_cnt, visitedRepoCount]
    omega

theorem enumBBO_get {w : World} (hnd : (w.orgs.map Org.login).Nodup) {o : Org}
    (ho : o ∈ w.orgs) : dictGet (enumBBO w) o.login = some (orgInner w.now o) :=
  orgFold_get w.orgs ([], 0) hnd o ho

theorem enumerate_ok {w : World} (h : w.orgListFail = none) :
    enumerate w = Except.ok (enumBBO w, visitedRepoCount w.orgs) := by
  unfold enumerate enumBBO
  rw [h]
  have := @orgFold_cnt w.now w.orgs ([], 0)
  simp only [Nat.zero_add] at this
  rw [← this]

theorem keepBranch_true {b : Branch} (hk : keepBranch b = true) :
    b.name ≠ "main" ∧ b.commitFail = false := by
  simp only [keepBranch, Bool.and_eq_true, bne_iff_ne, Bool.not_eq_true'] at hk
  exact hk

theorem keepBranch_false {b : Branch} (hk : keepBranch b = false) :
    b.name = "main" ∨ b.commitFail = true := by
  simp only [keepBranch, Bool.and_eq_false_iff, bne_eq_false_iff_eq, Bool.not_eq_false] at hk
  rcases hk with h | h
  · exact Or.inl h
  · exact Or.inr (by simpa using h)

theorem innerStepBranch_keep {now : Int} {rname : String} {b : Branch}
    (inner : List (String × List BranchRec)) (hk : keepBranch b = true) :
    innerStepBranch now rname b inner
      = dictSet inner rname ((dictGet inner rname).getD [] ++ [branchRecOf now b]) := by
  rcases keepBranch_true hk with ⟨h1, h2⟩
  simp [innerStepBranch, h1, h2]

theorem innerStepBranch_skip {now : Int} {rname : String} {b : Branch}
    (inner : List (String × List BranchRec)) (hk : keepBranch b = false) :
    innerStepBranch now rname b inner = inner := by
  rcases keepBranch_false hk with h | h
  · simp [innerStepBranch, h]
  · have : b.name ≠ "main" ∨ b.name = "main" := (ne_or_eq _ _)
    rcases this with h1 | h1
    · simp [innerStepBranch, h1, h]
    · simp [innerStepBranch, h1]

theorem innerStepBranch_get_ne {now : Int} {rname : String} {b : Branch}
    {inner : List (String × List BranchRec)} {k : String} (hk : k ≠ rname) :
    dictGet (innerStepBranch now rname b inner) k = dictGet inner k := by
  unfold innerStepBranch
  by_cases h1 : b.name ≠ "main"
  · by_cases h2 : b.commitFail
    · simp [h1, h2]
    · simp [h1, h2, dictGet_dictSet_ne _ _ _ _ hk]
  · simp [h1]

theorem innerBranchFold_get {now : Int} {rname : String} :
    ∀ (bs : List Branch) (inner : List (String × List BranchRec)),
      dictGet (bs.foldl (fun i b => innerStepBranch now rname b i) inner) rname
        = if bs.filter keepBranch = [] then dictGet inner rname
          else some ((dictGet inner rname).getD []
            ++ (bs.filter keepBranch).map (branchRecOf now))
  | [], inner => by simp
  | b :: bs, inner => by
    by_cases hk : keepBranch b = true
    · have hfil : (b :: bs).filter keepBranch = b :: bs.filter keepBranch := by
        simp [List.filter_cons, hk]
      simp only [List.foldl_cons, innerStepBranch_keep inner hk,
        innerBranchFold_get bs _, hfil]
      by_cases hbs : bs.filter keepBranch = []
      · simp [hbs, dictGet_dictSet_self]
      · simp [hbs, dictGet_dictSet_self, List.append_assoc]
    · have hk' : keepBranch b = false := bool_eq_false hk
      have hfil : (b :: bs).filter keepBranch = bs.filter keepBranch := by
        simp [List.filter_cons, hk']
      simp only [List.foldl_cons, innerStepBranch_skip inner hk',
        innerBranchFold_get bs inner, hfil]

theorem innerBranchFold_get_ne {now : Int} {rname : String} :
    ∀ (bs : List Branch) (inner : List (String × List BranchRec)) (k : String),
      k ≠ rname →
      dictGet (bs.foldl (fun i b => innerStepBranch now rname b i) inner) k
        = dictGet inner k
  | [], _, _, _ => rfl
  | b :: bs, inner, k, hk => by
    simp only [List.foldl_cons]
    rw [innerBranchFold_get_ne bs _ k hk, innerStepBranch_get_ne hk]

theorem innerStepRepo_get_ne {now : Int} {r : Repo}
    {inner : List (String × List BranchRec)} {k : String} (hk : k ≠ r.name) :
    dictGet (innerStepRepo now r inner) k = dictGet inner k := by
  unfold innerStepRepo
  by_cases hf : r.listBranchesFail
  · simp [hf]
  · simp only [hf, Bool.false_eq_true, if_false]
    exact innerBranchFold_get_ne r.branches inner k hk

theorem innerRepoFold_get_ne {now : Int} :
    ∀ (rs : List Repo) (inner : List (String × List BranchRec)) (k : String),
      k ∉ rs.map Repo.name →
      dictGet (rs.foldl (fun i r => innerStepRepo now r i) inner) k = dictGet inner k
  | [], _, _, _ => rfl
  | r :: rs, inner, k, hk => by
    simp only [List.map_cons, List.mem_cons] at hk
    push_neg at hk
    simp only [List.foldl_cons]
    rw [innerRepoFold_get_ne rs _ k hk.2, innerStepRepo_get_ne hk.1]

theorem innerRepoFold_get {now : Int} :
    ∀ (rs : List Repo) (inner : List (String × List BranchRec)) {r : Repo},
      (rs.map Repo.name).Nodup → r ∈ rs → r.listBranchesFail = false →
      repoRecs now r ≠ [] →
      dictGet (rs.foldl (fun i x => innerStepRepo now x i) inner) r.name
        = some ((dictGet inner r.name).getD [] ++ repoRecs now r)
  | [], _, r, _, hr, _, _ => absurd hr (List.not_mem_nil r)
  | r0 :: rs, inner, r, hnd, hr, hrf, hne => by
    simp only [List.map_cons, List.nodup_cons] at hnd
    rcases List.mem_cons.mp hr with h | h
    · subst h
      simp only [List.foldl_cons]
      rw [innerRepoFold_get_ne rs _ r.name hnd.1]
      unfold innerStepRepo
      simp only [hrf, Bool.false_eq_true, if_false]
      rw [innerBranchFold_get r.branches inner]
      have hfil : ¬r.branches.filter keepBranch = [] := by
        intro hc
        exact hne (by simp [repoRecs, hc])
      simp [hfil, repoRecs]
    · have hname : r.name ≠ r0.name := by
        intro hc
        exact hnd.1 (hc ▸ List.mem_map_of_mem Repo.name h)
      simp only [List.foldl_cons]
      rw [innerRepoFold_get rs _ hnd.2 h hrf hne, innerStepRepo_get_ne hname]

theorem orgInner_get {now : Int} {o : Org} (hnd : (o.repos.map Repo.name).Nodup)
    (hof : o.listReposFail = false) {r : Repo} (hr : r ∈ o.repos)
    (hrf : r.listBranchesFail = false) (hne : repoRecs now r ≠ []) :
    dictGet (orgInner now o) r.name = some (repoRecs now r) := by
  unfold orgInner
  simp only [hof, Bool.false_eq_true, if_false]
  rw [innerRepoFold_get o.repos [] hnd hr hrf hne]
  simp [dictGet]

theorem recordsAt_enum {w : World} (hw : wellFormed w) {o : Org} (ho : o ∈ w.orgs)
    (hof : o.listReposFail = false) {r : Repo} (hr : r ∈ o.repos)
    (hrf : r.listBranchesFail = false) (hne : repoRecs w.now r ≠ []) :
    recordsAt (enumBBO w) o.login r.name = repoRecs w.now r := by
  unfold recordsAt
  rw [enumBBO_get hw.1 ho]
  simp only [Option.getD_some]
  rw [orgInner_get (hw.2.1 o ho) hof hr hrf hne]
  rfl

/-- Well-formedness of one inner dictionary: no "main" record, no empty
record list, distinct keys. -/
def innerOK (inner : List (String × List BranchRec)) : Prop :=
  (∀ q ∈ inner, ∀ x ∈ q.2, x.branch ≠ "main") ∧ (∀ q ∈ inner, q.2 ≠ []) ∧ keysNodup inner

/-- Well-formedness of the whole collected dictionary. -/
def stateOK (bbo : List (String × List (String × List BranchRec))) : Prop :=
  keysNodup bbo ∧ ∀ p ∈ bbo, innerOK p.2

theorem innerOK_nil : innerOK [] :=
  ⟨fun q hq => absurd hq (List.not_mem_nil q), fun q hq => absurd hq (List.not_mem_nil q),
   by simp [keysNodup]⟩

theorem stateOK_nil : stateOK [] :=
  ⟨by simp [keysNodup], fun p hp => absurd hp (List.not_mem_nil p)⟩

theorem getD_innerOK {bbo : List (String × List (String × List BranchRec))}
    (h : stateOK bbo) (login : String) : innerOK ((dictGet bbo login).getD []) := by
  cases hop : dictGet bbo login with
  | none => exact innerOK_nil
  | some i => exact h.2 (login, i) (dictGet_mem hop)

theorem innerOK_append {inner : List (String × List BranchRec)} (hi : innerOK inner)
    {rname : String} {x : BranchRec} (hb : x.branch ≠ "main") :
    innerOK (dictSet inner rname ((dictGet inner rname).getD [] ++ [x])) := by
  refine ⟨?_, ?_, keysNodup_dictSet rname _ hi.2.2⟩
  · intro q hq y hy
    rcases mem_dictSet hq with h | h
    · subst h
      rcases List.mem_append.mp hy with h' | h'
      · cases hop : dictGet inner rname with
        | none => rw [hop] at h'; simp at h'
        | some l =>
          rw [hop] at h'
          exact hi.1 (rname, l) (dictGet_mem hop) y h'
      · rw [List.mem_singleton.mp h']
        exact hb
    · exact hi.1 q h y hy
  · intro q hq
    rcases mem_dictSet hq with h | h
    · subst h
      simp
    · exact hi.2.1 q h

theorem stateOK_setOuter {bbo : List (String × List (String × List BranchRec))}
    (h : stateOK bbo) {login : String} {newInner : List (String × List BranchRec)}
    (hi : innerOK newInner) : stateOK (dictSet bbo login newInner) := by
  refine ⟨keysNodup_dictSet login newInner h.1, ?_⟩
  intro p hp
  rcases mem_dictSet hp with h' | h'
  · subst h'
    exact hi
  · exact h.2 p h'

theorem processBranch_stateOK {now : Int} {login rname : String} {b : Branch}
    {bbo : List (String × List (String × List BranchRec))} (h : stateOK bbo) :
    stateOK (processBranch now login rname b bbo) := by
  unfold processBranch
  by_cases h1 : b.name ≠ "main"
  · by_cases h2 : b.commitFail
    · simpa [h1, h2] using h
    · rw [if_pos h1, if_neg h2]
      refine stateOK_setOuter h (innerOK_append (getD_innerOK h login) ?_)
      exact h1
  · simpa [h1] using h

theorem processRepo_stateOK {now : Int} {login : String} {r : Repo}
    {st : List (String × List (String × List BranchRec)) × Nat} (h : stateOK st.1) :
    stateOK (processRepo now login r st).1 := by
  unfold processRepo
  by_cases hf : r.listBranchesFail
  · simpa [hf] using h
  · simp only [hf, Bool.false_eq_true, if_false]
    exact foldl_invariant (fun s => stateOK s) _ r.branches st.1 h
      (fun s' b _ hs => processBranch_stateOK hs)

theorem processOrg_stateOK {now : Int} {o : Org}
    {st : List (String × List (String × List BranchRec)) × Nat} (h : stateOK st.1) :
    stateOK (processOrg now o st).1 := by
  unfold processOrg
  have h0 : stateOK (dictSet st.1 o.login []) := stateOK_setOuter h innerOK_nil
  by_cases hf : o.listReposFail
  · simpa [hf] using h0
  · simp only [hf, Bool.false_eq_true, if_false]
    exact foldl_invariant (fun s => stateOK s.1) _ o.repos (dictSet st.1 o.login [], st.2) h0
      (fun s' r _ hs => processRepo_stateOK hs)

theorem stateOK_enum (w : World) : stateOK (enumBBO w) := by
  unfold enumBBO
  exact foldl_invariant (fun st => stateOK st.1) _ w.orgs ([], 0) stateOK_nil
    (fun s' o _ hs => processOrg_stateOK hs)

theorem mainFree_enum (w : World) : mainFree (enumBBO w) := by
  intro p hp q hq x hx
  exact ((stateOK_enum w).2 p hp).1 q hq x hx

theorem noEmptyRepoLists_enum (w : World) : noEmptyRepoLists (enumBBO w) := by
  intro p hp q hq
  exact ((stateOK_enum w).2 p hp).2.1 q hq

/-! ### Helper lemmas: the formatter -/

theorem flatMap_ext {α β : Type} :
    ∀ (l : List α) (f g : α → List β), (∀ a ∈ l, f a = g a) → l.flatMap f = l.flatMap g
  | [], _, _, _ => rfl
  | a :: l, f, g, h => by
    simp only [List.flatMap_cons]
    rw [h a (List.mem_cons_self a l),
      flatMap_ext l f g (fun a' ha' => h a' (List.mem_cons_of_mem a ha'))]

theorem textLines_eq_items (bbo : List (String × List (String × List BranchRec))) :
    textLinesOf bbo = (bodyItems bbo).map itemText := by
  unfold textLinesOf bodyItems
  rw [List.map_flatMap]
  apply flatMap_ext
  intro p _
  by_cases hp2 : p.2 = []
  · simp [hp2]
  · simp only [hp2, if_false, List.map_cons, List.map_flatMap, itemText]
    congr 1
    apply flatMap_ext
    intro q _
    simp only [List.map_cons, List.map_map, itemText]
    rfl

theorem htmlLines_eq_items (bbo : List (String × List (String × List BranchRec))) :
    htmlLinesOf bbo = (bodyItems bbo).map itemHtml := by
  unfold htmlLinesOf bodyItems
  rw [List.map_flatMap]
  apply flatMap_ext
  intro p _
  by_cases hp2 : p.2 = []
  · simp [hp2]
  · simp only [hp2, if_false, List.map_cons, List.map_flatMap, itemHtml]
    congr 1
    apply flatMap_ext
    intro q _
    simp only [List.map_cons, List.map_map, itemHtml]
    rfl

theorem sortDict_pairwise {α : Type} (d : List (String × α)) :
    List.Pairwise keyLe (sortDict d) :=
  List.sorted_insertionSort keyLe d

theorem sortDict_perm {α : Type} (d : List (String × α)) :
    List.Perm (sortDict d) d :=
  List.perm_insertionSort keyLe d

theorem sortBranches_pairwise (l : List BranchRec) :
    List.Pairwise recLe (sortBranches l) :=
  List.sorted_insertionSort recLe l

theorem sortBranches_perm (l : List BranchRec) : List.Perm (sortBranches l) l :=
  List.perm_insertionSort recLe l

theorem sortDict_keysNodup {α : Type} {d : List (String × α)} (h : keysNodup d) :
    keysNodup (sortDict d) := by
  unfold keysNodup at *
  exact (((sortDict_perm d).map Prod.fst).nodup_iff).mpr h

theorem sortDict_pairwise_strict {α : Type} {d : List (String × α)} (h : keysNodup d) :
    List.Pairwise (fun a b : String × α => strLtB a.1 b.1 = true) (sortDict d) := by
  have hs : List.Pairwise keyLe (sortDict d) := sortDict_pairwise d
  have hn : List.Pairwise (fun a b : String × α => a.1 ≠ b.1) (sortDict d) :=
    List.pairwise_map.mp (sortDict_keysNodup h)
  exact (hs.and hn).imp (fun h' => strLtB_of_strLeB_ne h'.1 h'.2)

theorem mem_orgTriples {p : String × List (String × List BranchRec)}
    {x : String × String × String}
    (hx : x ∈ (if p.2 = [] then []
      else (sortDict p.2).flatMap (fun q =>
        (sortBranches q.2).map (fun b => (p.1, q.1, b.branch))))) : x.1 = p.1 := by
  by_cases hp : p.2 = []
  · rw [hp] at hx
    simp at hx
  · simp only [hp, if_false] at hx
    rcases List.mem_flatMap.mp hx with ⟨q, _, hq⟩
    rcases List.mem_map.mp hq with ⟨b, _, rfl⟩
    rfl

theorem tripleSeq_sorted {bbo : List (String × List (String × List BranchRec))}
    (h1 : keysNodup bbo) (h2 : ∀ p ∈ bbo, keysNodup p.2) :
    List.Pairwise lexLe (tripleSeq bbo) := by
  unfold tripleSeq
  refine List.pairwise_flatten.mpr ⟨?_, ?_⟩
  · intro l' hl'
    rcases List.mem_map.mp hl' with ⟨p, hp, rfl⟩
    by_cases hp2 : p.2 = []
    · simp [hp2]
    · simp only [hp2, if_false]
      refine List.pairwise_flatten.mpr ⟨?_, ?_⟩
      · intro l'' hl''
        rcases List.mem_map.mp hl'' with ⟨q, _, rfl⟩
        refine List.pairwise_map.mpr ?_
        refine (sortBranches_pairwise q.2).imp ?_
        intro a b hab
        exact Or.inr ⟨rfl, Or.inr ⟨rfl, hab⟩⟩
      · have hq2 : keysNodup p.2 := h2 p ((sortDict_perm bbo).mem_iff.mp hp)
        refine List.pairwise_map.mpr ?_
        refine (sortDict_pairwise_strict hq2).imp ?_
        intro q1 q2 h12 x hx y hy
        rcases List.mem_map.mp hx with ⟨a, _, rfl⟩
        rcases List.mem_map.mp hy with ⟨b, _, rfl⟩
        exact Or.inr ⟨rfl, Or.inl h12⟩
  · refine List.pairwise_map.mpr ?_
    refine (sortDict_pairwise_strict h1).imp ?_
    intro p1 p2 h12 x hx y hy
    have hx1 := mem_orgTriples hx
    have hy1 := mem_orgTriples hy
    left
    rw [hx1, hy1]
    exact h12

theorem getLastOpt_mem {α : Type} : ∀ (l : List α) (x : α), l.getLast? = some x → x ∈ l
  | [], x, h => by simp at h
  | [a], x, h => by
    simp [List.getLast?] at h
    simp [h]
  | a :: b :: t, x, h => by
    have h' : (b :: t).getLast? = some x := by
      simpa [List.getLast?_cons_cons] using h
    exact List.mem_cons_of_mem _ (getLastOpt_mem (b :: t) x h')

theorem branch_followsOK {x : Item} (hx : isBranchItem x = true) (y : Item) :
    followsOK x y := by
  cases x with
  | org n => simp [isBranchItem] at hx
  | repo n => simp [isBranchItem] at hx
  | branch n s =>
    exact ⟨fun hc => by simp [isOrgItem] at hc, fun hc => by simp [isRepoItem] at hc⟩

theorem chain_all_branches : ∀ (l : List Item),
    (∀ x ∈ l, isBranchItem x = true) → List.Chain' followsOK l
  | [], _ => List.chain'_nil
  | [a], _ => List.chain'_singleton a
  | a :: b :: t, h => by
    rw [List.chain'_cons]
    exact ⟨branch_followsOK (h a (List.mem_cons_self a (b :: t))) b,
      chain_all_branches (b :: t) (fun x hx => h x (List.mem_cons_of_mem a hx))⟩

theorem chain_flatten_blocks : ∀ (ls : List (List Item)),
    (∀ l ∈ ls, l = [] ∨ (List.Chain' followsOK l ∧
      ∀ x, l.getLast? = some x → isBranchItem x = true)) →
    List.Chain' followsOK ls.flatten ∧
      ∀ x, ls.flatten.getLast? = some x → isBranchItem x = true
  | [], _ => ⟨List.chain'_nil, fun x hx => by simp at hx⟩
  | l :: ls, h => by
    have hl := h l (List.mem_cons_self l ls)
    have ih := chain_flatten_blocks ls (fun l' hl' => h l' (List.mem_cons_of_mem l hl'))
    rw [List.flatten_cons]
    constructor
    · refine List.chain'_append.mpr ⟨?_, ih.1, ?_⟩
      · rcases hl with h0 | h0
        · rw [h0]
          exact List.chain'_nil
        · exact h0.1
      · intro x hx y _
        rcases hl with h0 | h0
        · rw [h0] at hx
          simp at hx
        · exact branch_followsOK (h0.2 x hx) y
    · by_cases hfl : ls.flatten = []
      · rw [hfl, List.append_nil]
        intro x hx
        rcases hl with h0 | h0
        · rw [h0] at hx
          simp at hx
        · exact h0.2 x hx
      · rw [List.getLast?_append_of_ne_nil l hfl]
        exact ih.2

theorem repoBlock_good {q : String × List BranchRec} (hq : q.2 ≠ []) :
    List.Chain' followsOK
      (Item.repo q.1 :: (sortBranches q.2).map (fun x => Item.branch x.branch x.stale)) ∧
    ∀ x, (Item.repo q.1 ::
        (sortBranches q.2).map (fun x => Item.branch x.branch x.stale)).getLast? = some x →
      isBranchItem x = true := by
  have hsb : sortBranches q.2 ≠ [] := by
    intro hc
    have := (sortBranches_perm q.2).length_eq
    rw [hc] at this
    exact hq (List.eq_nil_of_length_eq_zero this.symm)
  have hmapne : (sortBranches q.2).map (fun x => Item.branch x.branch x.stale) ≠ [] := by
    simpa using hsb
  have hallb : ∀ x ∈ (sortBranches q.2).map (fun x => Item.branch x.branch x.stale),
      isBranchItem x = true := by
    intro x hx
    rcases List.mem_map.mp hx with ⟨b, _, rfl⟩
    rfl
  constructor
  · rw [List.chain'_cons']
    constructor
    · intro y hy
      have hym : y ∈ (sortBranches q.2).map (fun x => Item.branch x.branch x.stale) := by
        rcases hhd : ((sortBranches q.2).map (fun x => Item.branch x.branch x.stale)).head?
          with _ | z
        · rw [hhd] at hy
          simp at hy
        · rw [hhd] at hy
          simp only [Option.mem_def, Option.some.injEq] at hy
          subst hy
          exact List.mem_of_mem_head? hhd
      exact ⟨fun hc => by simp [isOrgItem] at hc, fun _ => hallb y hym⟩
    · exact chain_all_branches _ hallb
  · intro x hx
    have : (Item.repo q.1 ::
        (sortBranches q.2).map (fun x => Item.branch x.branch x.stale))
        = [Item.repo q.1] ++ (sortBranches q.2).map (fun x => Item.branch x.branch x.stale) :=
      rfl
    rw [this, List.getLast?_append_of_ne_nil _ hmapne] at hx
    exact hallb x (getLastOpt_mem _ x hx)

theorem orgBlock_good {p : String × List (String × List BranchRec)}
    (hpOK : ∀ q ∈ p.2, q.2 ≠ []) :
    (if p.2 = [] then ([] : List Item)
      else Item.org p.1 :: (sortDict p.2).flatMap (fun q =>
        Item.repo q.1 :: (sortBranches q.2).map (fun x => Item.branch x.branch x.stale)))
      = [] ∨
    (List.Chain' followsOK
      (if p.2 = [] then ([] : List Item)
        else Item.org p.1 :: (sortDict p.2).flatMap (fun q =>
          Item.repo q.1 :: (sortBranches q.2).map (fun x => Item.branch x.branch x.stale))) ∧
      ∀ x, (if p.2 = [] then ([] : List Item)
        else Item.org p.1 :: (sortDict p.2).flatMap (fun q =>
          Item.repo q.1 :: (sortBranches q.2).map (fun x =>
            Item.branch x.branch x.stale))).getLast? = some x → isBranchItem x = true) := by
  by_cases hp2 : p.2 = []
  · left
    simp [hp2]
  · right
    simp only [hp2, if_false]
    have hblocks : ∀ l ∈ (sortDict p.2).map (fun q =>
        Item.repo q.1 :: (sortBranches q.2).map (fun x => Item.branch x.branch x.stale)),
        l = [] ∨ (List.Chain' followsOK l ∧
          ∀ x, l.getLast? = some x → isBranchItem x = true) := by
      intro l hl
      rcases List.mem_map.mp hl with ⟨q, hq, rfl⟩
      exact Or.inr (repoBlock_good (hpOK q ((sortDict_perm p.2).mem_iff.mp hq)))
    have hchain := chain_flatten_blocks _ hblocks
    have hL : (sortDict p.2).flatMap (fun q =>
        Item.repo q.1 :: (sortBranches q.2).map (fun x => Item.branch x.branch x.stale))
        = ((sortDict p.2).map (fun q =>
          Item.repo q.1 :: (sortBranches q.2).map (fun x =>
            Item.branch x.branch x.stale))).flatten := rfl
    have hsd : sortDict p.2 ≠ [] := by
      intro hc
      have := (sortDict_perm p.2).length_eq
      rw [hc] at this
      exact hp2 (List.eq_nil_of_length_eq_zero this.symm)
    rcases List.exists_cons_of_ne_nil hsd with ⟨q0, qs, hqq⟩
    have hhead : ((sortDict p.2).flatMap (fun q =>
        Item.repo q.1 :: (sortBranches q.2).map (fun x =>
          Item.branch x.branch x.stale))).head? = some (Item.repo q0.1) := by
      rw [hqq]
      rfl
    have hLne : (sortDict p.2).flatMap (fun q =>
        Item.repo q.1 :: (sortBranches q.2).map (fun x =>
          Item.branch x.branch x.stale)) ≠ [] := by
      intro hc
      rw [hc] at hhead
      simp at hhead
    constructor
    · rw [List.chain'_cons']
      constructor
      · intro y hy
        rw [hhead] at hy
        simp only [Option.mem_def, Option.some.injEq] at hy
        subst hy
        exact ⟨fun _ => rfl, fun hc => by simp [isRepoItem] at hc⟩
      · rw [hL]
        exact hchain.1
    · intro x hx
      have hcons : (Item.org p.1 :: (sortDict p.2).flatMap (fun q =>
          Item.repo q.1 :: (sortBranches q.2).map (fun x => Item.branch x.branch x.stale)))
          = [Item.org p.1] ++ (sortDict p.2).flatMap (fun q =>
            Item.repo q.1 :: (sortBranches q.2).map (fun x =>
              Item.branch x.branch x.stale)) := rfl
      rw [hcons, List.getLast?_append_of_ne_nil _ hLne, hL] at hx
      exact hchain.2 x hx

theorem bodyItems_structure {bbo : List (String × List (String × List BranchRec))}
    (hok : noEmptyRepoLists bbo) :
    List.Chain' followsOK (bodyItems bbo) ∧
      ∀ x, (bodyItems bbo).getLast? = some x → isBranchItem x = true := by
  have hblocks : ∀ l ∈ (sortDict bbo).map (fun p =>
      if p.2 = [] then ([] : List Item)
      else Item.org p.1 :: (sortDict p.2).flatMap (fun q =>
        Item.repo q.1 :: (sortBranches q.2).map (fun x => Item.branch x.branch x.stale))),
      l = [] ∨ (List.Chain' followsOK l ∧
        ∀ x, l.getLast? = some x → isBranchItem x = true) := by
    intro l hl
    rcases List.mem_map.mp hl with ⟨p, hp, rfl⟩
    exact orgBlock_good (hok p ((sortDict_perm bbo).mem_iff.mp hp))
  exact chain_flatten_blocks _ hblocks

theorem orgItem_mem {bbo : List (String × List (String × List BranchRec))} {login : String}
    (h : Item.org login ∈ bodyItems bbo) : ∃ p ∈ bbo, p.1 = login ∧ p.2 ≠ [] := by
  unfold bodyItems at h
  rcases List.mem_flatMap.mp h with ⟨p, hp, hin⟩
  by_cases hp2 : p.2 = []
  · rw [hp2] at hin
    simp at hin
  · simp only [hp2, if_false] at hin
    rcases List.mem_cons.mp hin with he | hin2
    · injection he with he'
      exact ⟨p, (sortDict_perm bbo).mem_iff.mp hp, he'.symm, hp2⟩
    · exfalso
      rcases List.mem_flatMap.mp hin2 with ⟨q, _, hq⟩
      rcases List.mem_cons.mp hq with he2 | he3
      · simp at he2
      · rcases List.mem_map.mp he3 with ⟨b, _, he4⟩
        simp at he4

theorem count_name_keep : ∀ (bs : List Branch) (bname : String),
    (bs.map Branch.name).Nodup →
    (∃ b ∈ bs, b.name = bname ∧ keepBranch b = true) →
    bs.countP (fun a => (a.name == bname) && keepBranch a) = 1
  | [], _, _, hex => by
    rcases hex with ⟨b, hb, _⟩
    exact absurd hb (List.not_mem_nil b)
  | a :: rest, bname, hnd, hex => by
    simp only [List.map_cons, List.nodup_cons] at hnd
    rcases hex with ⟨b, hb, hbn, hbk⟩
    rcases List.mem_cons.mp hb with h | h
    · subst h
      have hpa : (fun a => (a.name == bname) && keepBranch a) b = true := by
        show ((b.name == bname) && keepBranch b) = true
        rw [← hbn]
        simp [hbk]
      rw [List.countP_cons_of_pos (fun a => (a.name == bname) && keepBranch a) rest hpa]
      have hz : rest.countP (fun x => (x.name == bname) && keepBranch x) = 0 := by
        rw [List.countP_eq_zero]
        intro x hx
        have hxn : x.name ≠ bname := by
          intro hc
          exact hnd.1 (hbn ▸ hc ▸ List.mem_map_of_mem Branch.name hx : b.name ∈ _)
        simp [hxn]
      rw [hz]
    · have hne : a.name ≠ bname := by
        intro hc
        exact hnd.1 (hc ▸ hbn ▸ List.mem_map_of_mem Branch.name h)
      have hpa : ¬(fun x => (x.name == bname) && keepBranch x) a = true := by
        show ¬((a.name == bname) && keepBranch a) = true
        simp [hne]
      rw [List.countP_cons_of_neg (fun x => (x.name == bname) && keepBranch x) rest hpa]
      exact count_name_keep rest bname hnd.2 ⟨b, h, hbn, hbk⟩

theorem repoRecs_ne_nil {now : Int} {r : Repo} {b : Branch} (hb : b ∈ r.branches)
    (hk : keepBranch b = true) : repoRecs now r ≠ [] := by
  unfold repoRecs
  intro hc
  have : branchRecOf now b ∈ (r.branches.filter keepBranch).map (branchRecOf now) :=
    List.mem_map_of_mem _ (List.mem_filter.mpr ⟨hb, hk⟩)
  rw [hc] at this
  exact List.not_mem_nil _ this

theorem countP_repoRecs {now : Int} {r : Repo} (hnd : (r.branches.map Branch.name).Nodup)
    {b : Branch} (hb : b ∈ r.branches) (hk : keepBranch b = true) :
    (repoRecs now r).countP (fun x => x.branch == b.name) = 1 := by
  unfold repoRecs
  rw [List.countP_map, List.countP_filter]
  show r.branches.countP (fun a => (a.name == b.name) && keepBranch a) = 1
  exact count_name_keep r.branches b.name hnd ⟨b, hb, rfl, hk⟩

/-! ### Claim theorems -/

/-- C1 (code bug): the claim says a run with zero BranchRecords always
produces the fixed "No non-main branches found ..." body.  The code tests
`if branches_by_org:`, which is true as soon as any organization was
processed (line 198 inserts the key unconditionally), so a run that visits
one repository holding only `main` collects zero records yet takes the
non-empty path; there the adjacent-f-string bug of lines 248-251 turns the
header into the join separator and the body of a record-less run collapses
to `"\nTotal repositories processed: 1"` — not the fixed message. -/
theorem empty_report_misrendered :
    enumerate wEmptyBug = Except.ok ([("acme", [])], 1) ∧
    bodyItems [("acme", [])] = [] ∧
    (emailBodies wEmptyBug.ts [("acme", [])] 1).2 = "\nTotal repositories processed: 1" ∧
    (emailBodies wEmptyBug.ts [("acme", [])] 1).2 ≠ textBodyEmpty wEmptyBug.ts 1 := by
  refine ⟨rfl, rfl, rfl, by decide⟩

/-- C2 counterexample: with remaining=50 below the threshold and a reset
instant 20 seconds in the past, the claimed formula
`max(0, resetAt - now) + 10` demands a 10-second sleep, but
`check_rate_limit` computes `(resetAt - now) + 10 = -10`, which is not
positive, and does not sleep at all. -/
theorem rate_limit_sleep_cex :
    check_rate_limit_sleep 50 980 1000 = 0 ∧
    max 0 ((980 : Int) - 1000) + 10 = 10 ∧
    check_rate_limit_sleep 50 980 1000 ≠ max 0 ((980 : Int) - 1000) + 10 := by
  refine ⟨rfl, by decide, by decide⟩

/-- C2 (amended): when remaining is below the threshold of 100 the check
blocks for `max(0, (resetAt - now) + 10)` seconds — the 10-second buffer
is added before clamping at zero — and when remaining is at or above 100
it returns without sleeping. -/
theorem rate_limit_sleep_amended (remaining resetAt now : Int) :
    (remaining < 100 →
      check_rate_limit_sleep remaining resetAt now = max 0 (resetAt - now + 10)) ∧
    (100 ≤ remaining → check_rate_limit_sleep remaining resetAt now = 0) := by
  constructor
  · intro h
    unfold check_rate_limit_sleep
    rw [if_pos h]
    rcases le_or_lt (resetAt - now + 10) 0 with h2 | h2
    · rw [if_neg (not_lt.mpr h2), max_eq_left h2]
    · rw [if_pos h2, max_eq_right (le_of_lt h2)]
  · intro h
    unfold check_rate_limit_sleep
    rw [if_neg (not_lt.mpr h)]

/-- C2 witness: the spec scenario — remaining=50, reset 30 seconds ahead —
blocks 40 seconds; remaining=100 does not sleep. -/
theorem rate_limit_sleep_witness :
    check_rate_limit_sleep 50 1030 1000 = 40 ∧ check_rate_limit_sleep 100 1030 1000 = 0 := by
  constructor
  · have h := (rate_limit_sleep_amended 50 1030 1000).1 (by decide)
    rw [h]
    decide
  · exact (rate_limit_sleep_amended 100 1030 1000).2 (by decide)

/-- C3: staleness is the strict pure predicate `now - ts > 72 * 3600`
seconds; 72 hours + 1 second of age is stale, 71 hours 59 minutes is not. -/
theorem staleness_boundary (now commitDate : Int) :
    (isStale now commitDate = true ↔ now - commitDate > 72 * 3600) ∧
    isStale now (now - (72 * 3600 + 1)) = true ∧
    isStale now (now - (71 * 3600 + 59 * 60)) = false := by
  refine ⟨?_, ?_, ?_⟩
  · simp [isStale]
  · simp only [isStale, decide_eq_true_eq]
    omega
  · simp only [isStale, decide_eq_false_iff_not, not_lt]
    omega

/-- C4 counterexample: the claim as stated — every encountered branch
B ≠ "main" yields exactly one BranchRecord — fails when the branch's
HEAD-commit fetch raises: the branch-level `except` of lines 221-222
swallows the failure and no record is appended, so the count for the
encountered branch `dev` is 0, not 1. -/
theorem non_main_exactly_one_cex :
    bSkipDev ∈ rSkip.branches ∧ bSkipDev.name ≠ "main" ∧
    oSkip.listReposFail = false ∧ rSkip.listBranchesFail = false ∧
    enumerate wSkipC = Except.ok ([("o", [])], 1) ∧
    countRecords [("o", [])] "o" "r" "dev" = 0 := by
  refine ⟨by decide, by decide, rfl, rfl, rfl, rfl⟩

/-- C4 (amended): no record for a branch named "main" is ever produced,
and every encountered branch B ≠ "main" whose HEAD-commit fetch succeeds
yields exactly one BranchRecord for its (organization, repository) pair
(entity names being distinct, as the GitHub API guarantees). -/
theorem records_only_non_main (w : World) (hw : wellFormed w) :
    mainFree (enumBBO w) ∧
    ∀ o ∈ w.orgs, o.listReposFail = false →
      ∀ r ∈ o.repos, r.listBranchesFail = false →
        ∀ b ∈ r.branches, b.name ≠ "main" → b.commitFail = false →
          countRecords (enumBBO w) o.login r.name b.name = 1 := by
  refine ⟨mainFree_enum w, ?_⟩
  intro o ho hof r hr hrf b hb hbn hbc
  have hk : keepBranch b = true := by
    simp [keepBranch, hbn, hbc]
  have hne : repoRecs w.now r ≠ [] := repoRecs_ne_nil hb hk
  unfold countRecords
  rw [recordsAt_enum hw ho hof hr hrf hne]
  exact countP_repoRecs (hw.2.2 o ho r hr) hb hk

/-- C4 witness: in the clean run the branch `dev` of repository `r` yields
exactly one record, and no "main" record exists anywhere. -/
theorem records_only_non_main_witness :
    wellFormed wAudit ∧ countRecords (enumBBO wAudit) "o" "r" "dev" = 1 := by
  have hwf : wellFormed wAudit := by
    refine ⟨by decide, ?_, ?_⟩
    · intro o ho
      simp only [wAudit] at ho
      rcases List.mem_singleton.mp ho with rfl
      decide
    · intro o ho r hr
      simp only [wAudit] at ho
      rcases List.mem_singleton.mp ho with rfl
      simp only [oAudit] at hr
      rcases List.mem_singleton.mp hr with rfl
      decide
  refine ⟨hwf, ?_⟩
  exact (records_only_non_main wAudit hwf).2 oAudit (by decide) rfl rAudit (by decide) rfl
    bAuditDev (by decide) (by decide) rfl

/-- C5: the repository count of every non-fatal run equals the number of
repositories of every organization whose repository listing succeeded —
one per visited repository, independent of its branches or failures — and
in the spec's partial-failure scenario (three repositories, the second
failing its branch listing) the output holds records of repositories 1
and 3 only, with a count of 3. -/
theorem repo_count_invariant :
    (∀ w : World, w.orgListFail = none →
      enumerate w = Except.ok (enumBBO w, visitedRepoCount w.orgs)) ∧
    enumerate wPartial = Except.ok
      ([("o", [("r1", [{ branch := "dev", stale := true }]),
               ("r3", [{ branch := "dev3", stale := true }])])], 3) :=
  ⟨fun _ h => enumerate_ok h, rfl⟩

/-- C5 witness: the general count law applied to the scenario run. -/
theorem repo_count_invariant_witness :
    enumerate wPartial = Except.ok (enumBBO wPartial, visitedRepoCount wPartial.orgs) ∧
    visitedRepoCount wPartial.orgs = 3 :=
  ⟨repo_count_invariant.1 wPartial rfl, rfl⟩

/-- C6: a failure of the top-level organization listing is re-raised and
aborts the enumeration with exactly that error; any combination of
organization-, repository- and branch-level failures still yields a
successful enumeration; and every successfully listed repository of a
successfully listed organization keeps exactly its own records in the
output, no matter which siblings failed. -/
theorem failure_isolation :
    (∀ (w : World) (msg : String), w.orgListFail = some msg →
      enumerate w = Except.error msg) ∧
    (∀ w : World, w.orgListFail = none →
      enumerate w = Except.ok (enumBBO w, visitedRepoCount w.orgs)) ∧
    (∀ w : World, wellFormed w → ∀ o ∈ w.orgs, o.listReposFail = false →
      ∀ r ∈ o.repos, r.listBranchesFail = false → repoRecs w.now r ≠ [] →
        recordsAt (enumBBO w) o.login r.name = repoRecs w.now r) := by
  refine ⟨?_, ?_, ?_⟩
  · intro w msg h
    unfold enumerate
    rw [h]
  · exact fun _ h => enumerate_ok h
  · intro w hw o ho hof r hr hrf hne
    exact recordsAt_enum hw ho hof hr hrf hne

/-- C6 witness: with an organization that fails repository listing, a
repository that fails branch listing and a branch that fails its commit
fetch all present, the run still succeeds, the healthy repository keeps
its record, and a failing organization listing aborts with its message. -/
theorem failure_isolation_witness :
    enumerate wIso = Except.ok (enumBBO wIso, visitedRepoCount wIso.orgs) ∧
    recordsAt (enumBBO wIso) "g" "rg" = [{ branch := "feat", stale := true }] ∧
    enumerate wFatal = Except.error "boom" := by
  have hwf : wellFormed wIso := by
    refine ⟨by decide, ?_, ?_⟩
    · intro o ho
      simp only [wIso] at ho
      rcases List.mem_cons.mp ho with rfl | ho2
      · decide
      · rcases List.mem_singleton.mp ho2 with rfl
        decide
    · intro o ho r hr
      simp only [wIso] at ho
      rcases List.mem_cons.mp ho with rfl | ho2
      · simp only [oIsoBad] at hr
        exact absurd hr (List.not_mem_nil r)
      · rcases List.mem_singleton.mp ho2 with rfl
        simp only [oIso] at hr
        rcases List.mem_cons.mp hr with rfl | hr2
        · decide
        · rcases List.mem_singleton.mp hr2 with rfl
          decide
  refine ⟨failure_isolation.2.1 wIso rfl, ?_, failure_isolation.1 wFatal "boom" rfl⟩
  exact failure_isolation.2.2 wIso hwf oIso (by decide) rfl rIso (by decide) rfl (by decide)

/-- C7: for every collected dictionary with distinct keys (true of every
enumeration output), the (organization, repository, branch) rows of the
rendered report are lexicographically sorted: organizations ascending,
repositories ascending within an organization, branches ascending within
a repository. -/
theorem report_sorted (bbo : List (String × List (String × List BranchRec)))
    (h1 : keysNodup bbo) (h2 : ∀ p ∈ bbo, keysNodup p.2) :
    List.Pairwise lexLe (tripleSeq bbo) :=
  tripleSeq_sorted h1 h2

/-- C7 witness: organizations stored as `z` then `a` render `a` first, and
the whole row sequence is sorted. -/
theorem report_sorted_witness :
    tripleSeq dZ = [("a", "r1", "dev"), ("z", "r1", "main-ish"), ("z", "r2", "dev")] ∧
    List.Pairwise lexLe (tripleSeq dZ) := by
  refine ⟨rfl, report_sorted dZ (by unfold keysNodup; decide) ?_⟩
  intro p hp
  simp only [dZ] at hp
  rcases List.mem_cons.mp hp with rfl | hp2
  · unfold keysNodup
    decide
  · rcases List.mem_singleton.mp hp2 with rfl
    unfold keysNodup
    decide

/-- C8: the handler never raises: it returns status 200 with the fixed
confirmation body when secret retrieval, organization listing and the
email send all succeed, and status 500 whose body is exactly
`json.dumps('Error: <message>')` — no report — when any of them raises. -/
theorem handler_exit_contract (w : World) :
    (noFatal w ∧ lambda_handler w
      = { statusCode := 200, body := jsonDumps "Successfully processed and sent email" }) ∨
    (¬noFatal w ∧ ∃ msg, lambda_handler w
      = { statusCode := 500, body := jsonDumps ("Error: " ++ msg) }) := by
  rcases hs : w.secretFail with _ | msg
  · rcases ho : w.orgListFail with _ | msg2
    · rcases he : w.sendEmailFail with _ | msg3
      · left
        refine ⟨⟨hs, ho, he⟩, ?_⟩
        simp [lambda_handler, hs, he, enumerate, ho]
      · right
        have hnf : ¬noFatal w := by
          intro hc
          rcases hc with ⟨-, -, h3⟩
          rw [he] at h3
          exact Option.noConfusion h3
        refine ⟨hnf, msg3, ?_⟩
        simp [lambda_handler, hs, ho, he, enumerate]
    · right
      have hnf : ¬noFatal w := by
        intro hc
        rcases hc with ⟨-, h2, -⟩
        rw [ho] at h2
        exact Option.noConfusion h2
      refine ⟨hnf, msg2, ?_⟩
      simp [lambda_handler, hs, ho, enumerate]
  · right
    have hnf : ¬noFatal w := by
      intro hc
      rcases hc with ⟨h1, -, -⟩
      rw [hs] at h1
      exact Option.noConfusion h1
    refine ⟨hnf, msg, ?_⟩
    simp [lambda_handler, hs]

/-- C9: the plain-text lines and the HTML lines of the non-empty report
render one and the same row sequence (`bodyItems`): same
(organization, repository, branch, staleness) entries, same order, same
Y/N rendering; the two differ only in the per-row markup. -/
theorem text_html_same_sequence (bbo : List (String × List (String × List BranchRec))) :
    textLinesOf bbo = (bodyItems bbo).map itemText ∧
    htmlLinesOf bbo = (bodyItems bbo).map itemHtml :=
  ⟨textLines_eq_items bbo, htmlLines_eq_items bbo⟩

/-- C10: in the body of every non-fatal run, an organization header is
immediately followed by a repository line and a repository line by a
branch line (the body, if non-empty, ends in a branch line);
organizations that contributed no record are omitted; and every
repository key in the grouping holds at least one record. -/
theorem report_body_structure (w : World)
    (bbo : List (String × List (String × List BranchRec))) (cnt : Nat)
    (h : enumerate w = Except.ok (bbo, cnt)) :
    List.Chain' followsOK (bodyItems bbo) ∧
    (∀ x, (bodyItems bbo).getLast? = some x → isBranchItem x = true) ∧
    (∀ login, dictGet bbo login = some [] → Item.org login ∉ bodyItems bbo) ∧
    noEmptyRepoLists bbo := by
  have hbbo : bbo = enumBBO w := by
    unfold enumerate at h
    cases ho : w.orgListFail with
    | some m =>
      rw [ho] at h
      exact absurd h (by simp)
    | none =>
      rw [ho] at h
      injection h with h'
      exact (congrArg Prod.fst h').symm
  subst hbbo
  have hok := noEmptyRepoLists_enum w
  have hstruct := bodyItems_structure hok
  refine ⟨hstruct.1, hstruct.2, ?_, hok⟩
  intro login hdg hmem
  rcases orgItem_mem hmem with ⟨p, hp, hp1, hp2⟩
  have hkeys : keysNodup (enumBBO w) := (stateOK_enum w).1
  have hval := dictGet_of_mem_nodup hkeys hp
  rw [hp1, hdg] at hval
  injection hval with h2
  exact hp2 h2.symm

/-- C10 witness: the organization `e` visited without any non-main record
is omitted from the body, which is exactly header, repository, branch. -/
theorem report_body_structure_witness :
    bodyItems [("e", []), ("g", [("rr", [{ branch := "dev", stale := true }])])]
      = [Item.org "g", Item.repo "rr", Item.branch "dev" true] ∧
    Item.org "e" ∉
      bodyItems [("e", []), ("g", [("rr", [{ branch := "dev", stale := true }])])] := by
  have h := report_body_structure wTen
    [("e", []), ("g", [("rr", [{ branch := "dev", stale := true }])])] 2 rfl
  exact ⟨rfl, h.2.2.1 "e" rfl⟩
